import Mathlib

/-!
Verification development for the migration SQL-generation library
(src/sql/lib.rs).  The definitions below are a shallow embedding of the
core identifier-assignment and cross-reference machinery: the canonical
PHP-style serializer, the SHA-256 content hasher, the insertion-ordered
migrate maps (IndexMap semantics), the per-entity-type id slices and the
registry lookups.  Machine integers are modelled as Nat with explicit
reduction modulo 2^32 where the source uses 32-bit arithmetic.
-/

namespace Migration

/-! ## Decimal rendering of natural numbers

Models Rust's usize::to_string (base-10, most significant digit first;
zero renders as the single digit 0).  A fuel argument keeps the
recursion structural; fuel n is always enough for the digits of n. -/

/-- Digits of n in base 10, most significant first (empty for 0). -/
def decDigits : Nat → Nat → List Nat
  | 0, _ => []
  | _ + 1, 0 => []
  | fuel + 1, n + 1 => decDigits fuel ((n + 1) / 10) ++ [(n + 1) % 10]

/-- Decimal string of a natural number, as produced by to_string in the source. -/
def decStr (n : Nat) : String :=
  if n = 0 then "0" else String.mk ((decDigits n n).map (fun d => Char.ofNat (48 + d)))

/-! ## UTF-8 byte sequences

Rust strings are UTF-8 byte strings and the serializer uses the byte
length of each value.  We model the byte sequence of a string explicitly. -/

/-- UTF-8 encoding of a single code point (1 to 4 bytes). -/
def encodeCp (n : Nat) : List Nat :=
  if n < 128 then [n]
  else if n < 2048 then [192 + n / 64, 128 + n % 64]
  else if n < 65536 then [224 + n / 4096, 128 + n / 64 % 64, 128 + n % 64]
  else [240 + n / 262144, 128 + n / 4096 % 64, 128 + n / 64 % 64, 128 + n % 64]

/-- UTF-8 bytes of a string (the byte string a Rust String holds). -/
def utf8Bytes (s : String) : List Nat :=
  s.data.flatMap (fun c => encodeCp c.toNat)

/-! ## Canonical encoder

Mirrors fn serialize in src/sql/lib.rs: a PHP-serialize style rendering
of an ordered list of strings, with 0-based contiguous indices and the
byte length of each component. -/

/-- The canonical encoder from the source: serialize of a list of values.
Follows the exact push_str sequence of the Rust function, with v.len
being the UTF-8 byte length of the value. -/
def serialize (values : List String) : String :=
  (values.enum.foldl
    (fun acc iv =>
      acc ++ "i:" ++ decStr iv.1 ++ ";" ++ "s:" ++ decStr (utf8Bytes iv.2).length
        ++ ":\"" ++ iv.2 ++ "\";")
    ("a:" ++ decStr values.length ++ ":\x7b"))
    ++ "\x7d"

/-! ## SHA-256

Faithful model of the Sha256 digest used by fn hash (crypto crate):
standard FIPS 180-4 SHA-256 over the UTF-8 bytes of the input string,
rendered as lowercase hex.  Words are Nat reduced modulo 2^32. -/

def M32 : Nat := 4294967296

def add32 (a b : Nat) : Nat := (a + b) % M32

def rotr32 (n x : Nat) : Nat := (x >>> n) ||| ((x % (2 ^ n)) <<< (32 - n))

def bsig0 (x : Nat) : Nat := (rotr32 2 x) ^^^ (rotr32 13 x) ^^^ (rotr32 22 x)

def bsig1 (x : Nat) : Nat := (rotr32 6 x) ^^^ (rotr32 11 x) ^^^ (rotr32 25 x)

def ssig0 (x : Nat) : Nat := (rotr32 7 x) ^^^ (rotr32 18 x) ^^^ (x >>> 3)

def ssig1 (x : Nat) : Nat := (rotr32 17 x) ^^^ (rotr32 19 x) ^^^ (x >>> 10)

def chf (x y z : Nat) : Nat := (x &&& y) ^^^ ((x ^^^ (M32 - 1)) &&& z)

def majf (x y z : Nat) : Nat := (x &&& y) ^^^ (x &&& z) ^^^ (y &&& z)

/-- Assemble a 32-bit word from its high and low 16-bit halves (used to
spell out the round constants below). -/
def w32 (hi lo : Nat) : Nat := hi * 65536 + lo

def shaK : List Nat :=
  [w32 0x428a 0x2f98, w32 0x7137 0x4491, w32 0xb5c0 0xfbcf,
   w32 0xe9b5 0xdba5, w32 0x3956 0xc25b, w32 0x59f1 0x11f1,
   w32 0x923f 0x82a4, w32 0xab1c 0x5ed5, w32 0xd807 0xaa98,
   w32 0x1283 0x5b01, w32 0x2431 0x85be, w32 0x550c 0x7dc3,
   w32 0x72be 0x5d74, w32 0x80de 0xb1fe, w32 0x9bdc 0x06a7,
   w32 0xc19b 0xf174, w32 0xe49b 0x69c1, w32 0xefbe 0x4786,
   w32 0x0fc1 0x9dc6, w32 0x240c 0xa1cc, w32 0x2de9 0x2c6f,
   w32 0x4a74 0x84aa, w32 0x5cb0 0xa9dc, w32 0x76f9 0x88da,
   w32 0x983e 0x5152, w32 0xa831 0xc66d, w32 0xb003 0x27c8,
   w32 0xbf59 0x7fc7, w32 0xc6e0 0x0bf3, w32 0xd5a7 0x9147,
   w32 0x06ca 0x6351, w32 0x1429 0x2967, w32 0x27b7 0x0a85,
   w32 0x2e1b 0x2138, w32 0x4d2c 0x6dfc, w32 0x5338 0x0d13,
   w32 0x650a 0x7354, w32 0x766a 0x0abb, w32 0x81c2 0xc92e,
   w32 0x9272 0x2c85, w32 0xa2bf 0xe8a1, w32 0xa81a 0x664b,
   w32 0xc24b 0x8b70, w32 0xc76c 0x51a3, w32 0xd192 0xe819,
   w32 0xd699 0x0624, w32 0xf40e 0x3585, w32 0x106a 0xa070,
   w32 0x19a4 0xc116, w32 0x1e37 0x6c08, w32 0x2748 0x774c,
   w32 0x34b0 0xbcb5, w32 0x391c 0x0cb3, w32 0x4ed8 0xaa4a,
   w32 0x5b9c 0xca4f, w32 0x682e 0x6ff3, w32 0x748f 0x82ee,
   w32 0x78a5 0x636f, w32 0x84c8 0x7814, w32 0x8cc7 0x0208,
   w32 0x90be 0xfffa, w32 0xa450 0x6ceb, w32 0xbef9 0xa3f7,
   w32 0xc671 0x78f2]

def shaH0 : List Nat :=
  [w32 0x6a09 0xe667, w32 0xbb67 0xae85, w32 0x3c6e 0xf372,
   w32 0xa54f 0xf53a, w32 0x510e 0x527f, w32 0x9b05 0x688c,
   w32 0x1f83 0xd9ab, w32 0x5be0 0xcd19]

/-- Fixed-width big-endian byte rendering of a number. -/
def beBytes : Nat → Nat → List Nat
  | 0, _ => []
  | n + 1, v => beBytes n (v / 256) ++ [v % 256]

/-- SHA-256 padding: append 0x80, zero fill to 56 mod 64, then the
64-bit big-endian bit length. -/
def shaPad (msg : List Nat) : List Nat :=
  msg ++ 128 :: List.replicate ((119 - msg.length % 64) % 64) 0
    ++ beBytes 8 (msg.length * 8)

/-- Group bytes into big-endian 32-bit words, four bytes per word. -/
def bytesToWords : List Nat → List Nat
  | b0 :: b1 :: b2 :: b3 :: rest =>
      (((b0 * 256 + b1) * 256 + b2) * 256 + b3) :: bytesToWords rest
  | _ => []

/-- Message-schedule extension, keeping the words most recent first. -/
def extendW : Nat → List Nat → List Nat
  | 0, wrev => wrev
  | n + 1, wrev =>
      let x := add32 (add32 (ssig1 (wrev.getD 1 0)) (wrev.getD 6 0))
                     (add32 (ssig0 (wrev.getD 14 0)) (wrev.getD 15 0))
      extendW n (x :: wrev)

/-- The 64-word message schedule of one block. -/
def schedule (ws : List Nat) : List Nat :=
  (extendW 48 ws.reverse).reverse

/-- One SHA-256 round on the eight-word working state. -/
def shaRound (st : List Nat) (kw : Nat × Nat) : List Nat :=
  match st with
  | [a, b, c, d, e, f, g, h] =>
      let t1 := add32 (add32 (add32 h (bsig1 e)) (add32 (chf e f g) kw.1)) kw.2
      let t2 := add32 (bsig0 a) (majf a b c)
      [add32 t1 t2, a, b, c, add32 d t1, e, f, g]
  | other => other

/-- Compress one 64-byte block into the running hash state. -/
def compressBlock (h : List Nat) (block : List Nat) : List Nat :=
  let w := schedule (bytesToWords block)
  let st := (shaK.zip w).foldl shaRound h
  (h.zip st).map (fun p => add32 p.1 p.2)

/-- Split the padded message into 64-byte blocks (fuel keeps recursion
structural; fuel at least the length is always enough). -/
def chunks64 : Nat → List Nat → List (List Nat)
  | _, [] => []
  | 0, _ => []
  | fuel + 1, bs => bs.take 64 :: chunks64 fuel (bs.drop 64)

/-- SHA-256 digest bytes of a byte sequence. -/
def sha256 (msg : List Nat) : List Nat :=
  let padded := shaPad msg
  ((chunks64 padded.length padded).foldl compressBlock shaH0).flatMap (beBytes 4)

/-- Lowercase hex digit. -/
def hexDigit (n : Nat) : Char :=
  Char.ofNat (if n < 10 then 48 + n else 87 + n)

/-- The content hasher from the source: lowercase hex SHA-256 of the
UTF-8 bytes of the input string. -/
def hash (value : String) : String :=
  String.mk ((sha256 (utf8Bytes value)).flatMap (fun b => [hexDigit (b / 16), hexDigit (b % 16)]))

/-- Composition used throughout the source: hash of the serialized ids. -/
def source_ids_hash (values : List String) : String :=
  hash (serialize values)

/-! ## Insertion-ordered maps (IndexMap semantics)

The source collects rows into an indexmap IndexMap keyed by the source
id hash.  Inserting an existing key replaces the value but keeps the
key's original position; a new key is appended.  We model the map as an
association list built by exactly that insertion rule. -/

/-- One IndexMap insertion: replace in place if the key exists, else append. -/
def indexMapInsert {R : Type} (m : List (String × R)) (k : String) (v : R) :
    List (String × R) :=
  if m.any (fun p => p.1 == k) then
    m.map (fun p => if p.1 == k then (k, v) else p)
  else m ++ [(k, v)]

/-- MigrateMap map: fold the decoded rows, in input order, into the
insertion-ordered map keyed by each row's source id hash. -/
def migrateMap {R : Type} (key : R → String) (rows : List R) : List (String × R) :=
  rows.foldl (fun m r => indexMapInsert m (key r) r) []

namespace MigrateMap

/-- MigrateMap ids: the registry slice, assigning offset + index to each
key in map order. -/
def ids {R : Type} (offset : Nat) (m : List (String × R)) : List (String × Nat) :=
  m.enum.map (fun p => (p.2.1, offset + p.1))

/-- MigrateMap rows: enumerated rows with the offset applied. -/
def rows {R : Type} (offset : Nat) (m : List (String × R)) :
    List (Nat × (String × R)) :=
  m.enum.map (fun p => (offset + p.1, p.2))

end MigrateMap

/-! ## Identifier registry -/

/-- Entity-type tags naming the registry slices. -/
inductive IdMaps
  | FID
  | MID
  | NID
  | UID
  | VID
deriving DecidableEq

/-- One registry slice: source id hash to destination id. -/
abbrev TableIdMap := List (String × Nat)

/-- The shared registry: entity-type tag to slice. -/
abbrev TableIdMaps := List (IdMaps × TableIdMap)

/-- Association-list lookup, first binding wins. -/
def alookup {α β : Type} [DecidableEq α] (k : α) : List (α × β) → Option β
  | [] => none
  | p :: t => if p.1 = k then some p.2 else alookup k t

namespace MigrateMap

/-- MigrateMap uid: resolve a user name to a destination user id.  The
admin name is special-cased to 1 before any registry or hash use; any
other name is looked up, by source id hash, in the UID slice.  A missing
slice or key is the fatal ReferenceNotFound condition, modelled as none
(the source indexes the maps directly and panics there). -/
def uid (ids : TableIdMaps) (user : String) : Option Nat :=
  if user = "admin" then some 1
  else
    match alookup IdMaps.UID ids with
    | none => none
    | some slice => alookup (source_ids_hash [user]) slice

/-- MigrateMap mid: resolve a media reference (pid, dsid) to a
destination media id through the MID slice; absence is fatal. -/
def mid (ids : TableIdMaps) (pid dsid : String) : Option Nat :=
  match alookup IdMaps.MID ids with
  | none => none
  | some slice => alookup (source_ids_hash [pid, dsid]) slice

end MigrateMap

/-! ## Entity row types (fields as in the source structs) -/

structure UserRow where
  name : String
  pass : String
  mail : String
  status : String
  timezone : String
  language : String

/-- UserRow offset: ids 0 and 1 are reserved for system accounts. -/
def UserRow.offset : Nat := 2

/-- UserRow source ids: just the name. -/
def UserRow.source_ids (u : UserRow) : List String := [u.name]

structure FileRow where
  pid : String
  dsid : String
  version : String
  created_date : String
  mime_type : String
  name : String
  path : String
  user : String
  sha1 : String
  size : String

/-- FileRow source ids: pid, dsid and version. -/
def FileRow.source_ids (f : FileRow) : List String := [f.pid, f.dsid, f.version]

structure MediaRevisionRow where
  pid : String
  dsid : String
  version : String
  bundle : String
  created_date : String
  file_size : String
  label : String
  mime_type : String
  name : String
  user : String

/-- MediaRevisionRow source ids: pid, dsid and version. -/
def MediaRevisionRow.source_ids (r : MediaRevisionRow) : List String :=
  [r.pid, r.dsid, r.version]

/-- The users migrate map, keyed by the hash of the serialized name. -/
def userMap (users : List UserRow) : List (String × UserRow) :=
  migrateMap (fun u => source_ids_hash u.source_ids) users

/-- The registry slice written while processing the Users entity type. -/
def userIds (users : List UserRow) : TableIdMap :=
  MigrateMap.ids UserRow.offset (userMap users)

/-- The shared registry as it stands after the Users run (the state the
Files run resolves its user references against). -/
def usersRegistry (users : List UserRow) : TableIdMaps :=
  [(IdMaps.UID, userIds users)]

/-! ## Media revision input merge

MediaRevisionRow csv builds the effective input for the Media Revisions
entity type by writing the whole media.csv first and then every line of
media_revisions.csv except its header.  We model a csv file as its list
of lines, the first line being the header. -/

/-- The merged csv line list built by MediaRevisionRow csv. -/
def mergedMediaRevisionLines (mediaFile revisionsFile : List String) : List String :=
  mediaFile ++ revisionsFile.drop 1

/-- The data rows a csv reader with headers yields from a line list. -/
def csvDataRows (file : List String) : List String := file.drop 1

/-! ## First-seen order of keys -/

/-- Keys in order of first occurrence, skipping those already seen. -/
def firstSeenAux (seen : List String) : List String → List String
  | [] => []
  | k :: ks => if k ∈ seen then firstSeenAux seen ks else k :: firstSeenAux (k :: seen) ks

/-- The distinct keys of a key sequence, in first-seen order. -/
def firstSeen (ks : List String) : List String := firstSeenAux [] ks

/-- Keep the first of two optional values, as IndexMap last-write folds use. -/
def ofirst {α : Type} : Option α → Option α → Option α
  | some a, _ => some a
  | none, b => b

/-! ## A decoder for the canonical encoding

The count and per-component byte-length markers make the encoding
parseable without any escaping; the decoder below recovers the encoded
list from the bytes and witnesses injectivity of the encoder. -/

/-- Decimal digit byte test. -/
def isDigitB (b : Nat) : Bool := 48 ≤ b && b ≤ 57

/-- Consume a run of decimal digit bytes, accumulating their value. -/
def parseDigitsAux (acc : Nat) : List Nat → Nat × List Nat
  | [] => (acc, [])
  | b :: bs => if isDigitB b then parseDigitsAux (acc * 10 + (b - 48)) bs else (acc, b :: bs)

/-- Consume an expected byte sequence or fail. -/
def expects : List Nat → List Nat → Option (List Nat)
  | [], bs => some bs
  | _ :: _, [] => none
  | e :: es, b :: bs => if b = e then expects es bs else none

/-- Decode one UTF-8 code point, returning it with the remaining bytes. -/
def decodeCp : List Nat → Option (Nat × List Nat)
  | [] => none
  | b :: bs =>
    if b < 128 then some (b, bs)
    else if b < 224 then
      match bs with
      | b1 :: r => some ((b - 192) * 64 + (b1 - 128), r)
      | [] => none
    else if b < 240 then
      match bs with
      | b1 :: b2 :: r => some ((b - 224) * 4096 + (b1 - 128) * 64 + (b2 - 128), r)
      | _ => none
    else
      match bs with
      | b1 :: b2 :: b3 :: r =>
          some ((b - 240) * 262144 + (b1 - 128) * 4096 + (b2 - 128) * 64 + (b3 - 128), r)
      | _ => none

/-- Decode a whole byte list as UTF-8 characters (fuel bounds the
recursion; the byte count is always enough). -/
def decodeChars : Nat → List Nat → Option (List Char)
  | _, [] => some []
  | 0, _ :: _ => none
  | fuel + 1, b :: bs =>
    match decodeCp (b :: bs) with
    | none => none
    | some (n, rest) =>
      match decodeChars fuel rest with
      | none => none
      | some cs => some (Char.ofNat n :: cs)

/-- Decode a byte list into a string. -/
def decodeStr (bs : List Nat) : Option String :=
  match decodeChars bs.length bs with
  | none => none
  | some cs => some (String.mk cs)

/-- Parse n encoded components, each of the form i:k;s:len:"value";
where value is read by its byte length. -/
def parseItems : Nat → List Nat → Option (List String × List Nat)
  | 0, bs => some ([], bs)
  | n + 1, bs =>
    match expects (utf8Bytes "i:") bs with
    | none => none
    | some bs1 =>
      let (_, bs2) := parseDigitsAux 0 bs1
      match expects (utf8Bytes ";s:") bs2 with
      | none => none
      | some bs3 =>
        let (len, bs4) := parseDigitsAux 0 bs3
        match expects (utf8Bytes ":\"") bs4 with
        | none => none
        | some bs5 =>
          if len ≤ bs5.length then
            match decodeStr (bs5.take len), expects (utf8Bytes "\";") (bs5.drop len) with
            | some v, some bs6 =>
              match parseItems n bs6 with
              | none => none
              | some (vs, rest) => some (v :: vs, rest)
            | _, _ => none
          else none

/-- Parse a full canonical encoding back into its component list. -/
def parseSer (bs : List Nat) : Option (List String) :=
  match expects (utf8Bytes "a:") bs with
  | none => none
  | some bs1 =>
    let (n, bs2) := parseDigitsAux 0 bs1
    match expects (utf8Bytes ":\x7b") bs2 with
    | none => none
    | some bs3 =>
      match parseItems n bs3 with
      | none => none
      | some (vs, bs4) =>
        match expects (utf8Bytes "\x7d") bs4 with
        | none => none
        | some bs5 => if bs5.isEmpty then some vs else none

/-- Byte form of the decimal rendering decStr. -/
def decBytes (n : Nat) : List Nat :=
  if n = 0 then [48] else (decDigits n n).map (fun d => 48 + d)

/-- Byte form of the item section of the canonical encoding, indices
starting at i. -/
def serBytesItems : Nat → List String → List Nat
  | _, [] => []
  | i, v :: vs =>
    utf8Bytes "i:" ++ decBytes i ++ utf8Bytes ";s:" ++ decBytes (utf8Bytes v).length
      ++ utf8Bytes ":\"" ++ utf8Bytes v ++ utf8Bytes "\";" ++ serBytesItems (i + 1) vs

/-- Byte form of the whole canonical encoding. -/
def serBytes (l : List String) : List Nat :=
  utf8Bytes "a:" ++ decBytes l.length ++ utf8Bytes ":\x7b"
    ++ serBytesItems 0 l ++ utf8Bytes "\x7d"

end Migration

namespace Migration

/-! ## Keys of the migrate map are the first-seen distinct hashes -/

theorem firstSeenAux_congr (ks : List String) :
    ∀ s1 s2, (∀ x, x ∈ s1 ↔ x ∈ s2) → firstSeenAux s1 ks = firstSeenAux s2 ks := by
  induction ks with
  | nil => intro s1 s2 _; rfl
  | cons k ks ih =>
    intro s1 s2 h
    simp only [firstSeenAux]
    by_cases hk : k ∈ s1
    · rw [if_pos hk, if_pos ((h k).mp hk)]
      exact ih s1 s2 h
    · rw [if_neg hk, if_neg (fun hx => hk ((h k).mpr hx))]
      congr 1
      apply ih
      intro x
      simp only [List.mem_cons]
      exact or_congr Iff.rfl (h x)

theorem mem_keys_iff_any {R : Type} (m : List (String × R)) (k : String) :
    (m.any (fun p => p.1 == k)) = true ↔ k ∈ m.map Prod.fst := by
  rw [List.any_eq_true]
  constructor
  · rintro ⟨p, hp, hpk⟩
    exact List.mem_map.mpr ⟨p, hp, by simpa using hpk⟩
  · intro hk
    obtain ⟨p, hp, hpk⟩ := List.mem_map.mp hk
    exact ⟨p, hp, by simpa using hpk⟩

theorem map_fst_indexMapInsert {R : Type} (m : List (String × R)) (k : String) (v : R) :
    (indexMapInsert m k v).map Prod.fst =
      if k ∈ m.map Prod.fst then m.map Prod.fst else m.map Prod.fst ++ [k] := by
  unfold indexMapInsert
  by_cases hk : k ∈ m.map Prod.fst
  · rw [if_pos ((mem_keys_iff_any m k).mpr hk), if_pos hk, List.map_map]
    apply List.map_congr_left
    intro p _
    by_cases hp : p.1 = k
    · simp [hp]
    · simp [hp]
  · rw [if_neg (fun h => hk ((mem_keys_iff_any m k).mp h)), if_neg hk]
    simp

theorem foldl_insert_keys {R : Type} (key : R → String) :
    ∀ (rows : List R) (m : List (String × R)),
      ((rows.foldl (fun m r => indexMapInsert m (key r) r) m).map Prod.fst)
        = m.map Prod.fst ++ firstSeenAux (m.map Prod.fst) (rows.map key) := by
  intro rows
  induction rows with
  | nil => intro m; simp [firstSeenAux]
  | cons r rows ih =>
    intro m
    simp only [List.foldl_cons, List.map_cons, firstSeenAux]
    rw [ih]
    by_cases hk : key r ∈ m.map Prod.fst
    · rw [if_pos hk, map_fst_indexMapInsert, if_pos hk]
    · rw [if_neg hk, map_fst_indexMapInsert, if_neg hk, List.append_assoc]
      congr 1
      rw [List.singleton_append]
      congr 1
      apply firstSeenAux_congr
      intro x
      simp only [List.mem_append, List.mem_singleton, List.mem_cons]
      tauto

theorem migrateMap_keys {R : Type} (key : R → String) (rows : List R) :
    (migrateMap key rows).map Prod.fst = firstSeen (rows.map key) := by
  have h := foldl_insert_keys key rows []
  simpa [migrateMap, firstSeen] using h

theorem ids_eq_enum_keys {R : Type} (offset : Nat) (m : List (String × R)) :
    MigrateMap.ids offset m
      = (m.map Prod.fst).enum.map (fun p => (p.2, offset + p.1)) := by
  unfold MigrateMap.ids
  rw [List.enum_map, List.map_map]
  rfl

theorem slice_ids_spec {R : Type} (key : R → String) (offset : Nat) (rows : List R) :
    MigrateMap.ids offset (migrateMap key rows)
        = (firstSeen (rows.map key)).enum.map (fun p => (p.2, offset + p.1))
    ∧ (MigrateMap.ids offset (migrateMap key rows)).map Prod.snd
        = (List.range (firstSeen (rows.map key)).length).map (fun i => offset + i) := by
  constructor
  · rw [ids_eq_enum_keys, migrateMap_keys]
  · rw [ids_eq_enum_keys, migrateMap_keys, List.map_map]
    have h1 : (Prod.snd ∘ fun p : Nat × String => (p.2, offset + p.1))
        = (fun i => offset + i) ∘ Prod.fst := rfl
    rw [h1, ← List.map_map, List.enum_map_fst]

/-- C1: for an entity type processed with offset o over input rows with
N distinct source keys, the registry slice pairs each distinct key, in
first-seen order, with o plus its first-seen position, so the assigned
destination ids are exactly o, o+1, ..., o+N-1, each once. -/
theorem registry_slice_ids {R : Type} (sourceIds : R → List String) (offset : Nat)
    (rows : List R) :
    MigrateMap.ids offset (migrateMap (fun r => source_ids_hash (sourceIds r)) rows)
        = (firstSeen (rows.map (fun r => source_ids_hash (sourceIds r)))).enum.map
            (fun p => (p.2, offset + p.1))
    ∧ (MigrateMap.ids offset
          (migrateMap (fun r => source_ids_hash (sourceIds r)) rows)).map Prod.snd
        = (List.range
            (firstSeen (rows.map (fun r => source_ids_hash (sourceIds r)))).length).map
            (fun i => offset + i) :=
  slice_ids_spec (fun r => source_ids_hash (sourceIds r)) offset rows

/-! ## Properties of first-seen order and slice lookups -/

theorem mem_firstSeenAux (ks : List String) :
    ∀ seen x, x ∈ firstSeenAux seen ks ↔ x ∈ ks ∧ x ∉ seen := by
  induction ks with
  | nil => intro seen x; simp [firstSeenAux]
  | cons k ks ih =>
    intro seen x
    simp only [firstSeenAux]
    by_cases hk : k ∈ seen
    · rw [if_pos hk, ih]
      simp only [List.mem_cons]
      constructor
      · rintro ⟨hx, hs⟩; exact ⟨Or.inr hx, hs⟩
      · rintro ⟨hx | hx, hs⟩
        · exact absurd (hx ▸ hk) hs
        · exact ⟨hx, hs⟩
    · rw [if_neg hk]
      simp only [List.mem_cons, ih, List.mem_cons]
      constructor
      · rintro (rfl | ⟨hx, hs⟩)
        · exact ⟨Or.inl rfl, hk⟩
        · exact ⟨Or.inr hx, fun hx2 => hs (Or.inr hx2)⟩
      · rintro ⟨rfl | hx, hs⟩
        · exact Or.inl rfl
        · by_cases hxk : x = k
          · exact Or.inl hxk
          · exact Or.inr ⟨hx, fun h2 => by
              rcases h2 with h3 | h3
              · exact hxk h3
              · exact hs h3⟩

theorem firstSeenAux_nodup (ks : List String) :
    ∀ seen, (firstSeenAux seen ks).Nodup := by
  induction ks with
  | nil => intro seen; simp [firstSeenAux]
  | cons k ks ih =>
    intro seen
    simp only [firstSeenAux]
    by_cases hk : k ∈ seen
    · rw [if_pos hk]; exact ih seen
    · rw [if_neg hk]
      refine List.nodup_cons.mpr ⟨?_, ih (k :: seen)⟩
      intro hmem
      exact ((mem_firstSeenAux ks (k :: seen) k).mp hmem).2 (List.mem_cons_self k seen)

theorem firstSeen_nodup (ks : List String) : (firstSeen ks).Nodup :=
  firstSeenAux_nodup ks []

theorem mem_firstSeen (ks : List String) (x : String) :
    x ∈ firstSeen ks ↔ x ∈ ks := by
  rw [firstSeen, mem_firstSeenAux]
  simp

theorem alookup_enumFrom_nodup (l : List String) :
    ∀ (n i : Nat) (k : String), l.Nodup → l[i]? = some k →
      alookup k ((l.enumFrom n).map (fun p => (p.2, p.1))) = some (n + i) := by
  induction l with
  | nil => intro n i k _ h; simp at h
  | cons a t ih =>
    intro n i k hnd h
    rw [List.enumFrom_cons, List.map_cons]
    rcases List.nodup_cons.mp hnd with ⟨hna, hndt⟩
    match i with
    | 0 =>
      rw [List.getElem?_cons_zero] at h
      injection h with h
      subst h
      simp [alookup]
    | j + 1 =>
      rw [List.getElem?_cons_succ] at h
      have hmem : k ∈ t := by
        obtain ⟨hlt, hget⟩ := List.getElem?_eq_some.mp h
        exact hget ▸ List.getElem_mem hlt
      have hk_ne : a ≠ k := fun he => hna (he ▸ hmem)
      simp only [alookup]
      rw [if_neg hk_ne, ih (n + 1) j k hndt h]
      congr 1
      omega

theorem map_pair_enumFrom_add {α : Type} (l : List α) :
    ∀ n o : Nat, (l.enumFrom n).map (fun p => (p.2, o + p.1))
      = (l.enumFrom (o + n)).map (fun p => (p.2, p.1)) := by
  induction l with
  | nil => intro n o; rfl
  | cons a t ih =>
    intro n o
    rw [List.enumFrom_cons, List.enumFrom_cons, List.map_cons, List.map_cons]
    rw [ih (n + 1) o]
    have h : o + (n + 1) = (o + n) + 1 := by omega
    rw [h]

theorem alookup_enum_nodup (l : List String) (o i : Nat) (k : String)
    (hnd : l.Nodup) (h : l[i]? = some k) :
    alookup k (l.enum.map (fun p => (p.2, o + p.1))) = some (o + i) := by
  have he : l.enum = l.enumFrom 0 := rfl
  rw [he, map_pair_enumFrom_add l 0 o]
  exact alookup_enumFrom_nodup l (o + 0) i k hnd h

/-- C2: the uid resolution for the literal user name admin is the
destination id 1, whatever the registry holds; neither the registry nor
any hash enters the computation, which is why the answer is independent
of the registry argument and of any input position. -/
theorem admin_uid_special (ids : TableIdMaps) (user : String) (h : user = "admin") :
    MigrateMap.uid ids user = some 1 := by
  subst h
  rfl

/-- Witness for admin_uid_special at the empty registry. -/
theorem admin_uid_special_witness : MigrateMap.uid [] "admin" = some 1 :=
  admin_uid_special [] "admin" rfl

/-- C9: a non-admin user whose source key sits at first-seen position k
among the processed user rows is assigned destination id 2 + k in the
users registry slice (the user offset is 2). -/
theorem user_offset_ids (users : List UserRow) (k : Nat) (u : UserRow)
    (_hadmin : u.name ≠ "admin")
    (hpos : (firstSeen (users.map (fun r => source_ids_hash r.source_ids)))[k]?
      = some (source_ids_hash u.source_ids)) :
    alookup (source_ids_hash u.source_ids) (userIds users) = some (2 + k) := by
  unfold userIds userMap
  rw [ids_eq_enum_keys, migrateMap_keys]
  have h2 : UserRow.offset = 2 := rfl
  rw [h2]
  exact alookup_enum_nodup _ 2 k _ (firstSeen_nodup _) hpos

set_option maxRecDepth 400000 in
/-- Witness for user_offset_ids: with users alice then bob, bob's key
sits at first-seen position 1 and is assigned destination id 2 + 1. -/
theorem user_offset_ids_witness :
    alookup (source_ids_hash (UserRow.mk "bob" "" "" "" "" "").source_ids)
        (userIds [UserRow.mk "alice" "" "" "" "" "", UserRow.mk "bob" "" "" "" "" ""])
      = some (2 + 1) :=
  user_offset_ids [UserRow.mk "alice" "" "" "" "" "", UserRow.mk "bob" "" "" "" "" ""] 1
    (UserRow.mk "bob" "" "" "" "" "") (by decide) (by decide)

/-- C7: source key derivation and destination id assignment are pure
functions of the ordered input: two runs over the same ordered rows
produce the same keys and the same registry slice. -/
theorem derivation_deterministic {R : Type} (sourceIds : R → List String) (offset : Nat)
    (rows1 rows2 : List R) (h : rows1 = rows2) :
    rows1.map (fun r => source_ids_hash (sourceIds r))
        = rows2.map (fun r => source_ids_hash (sourceIds r))
    ∧ MigrateMap.ids offset (migrateMap (fun r => source_ids_hash (sourceIds r)) rows1)
        = MigrateMap.ids offset (migrateMap (fun r => source_ids_hash (sourceIds r)) rows2) := by
  subst h
  exact ⟨rfl, rfl⟩

/-- Witness for derivation_deterministic at a one-row users input. -/
theorem derivation_deterministic_witness :
    ([UserRow.mk "a" "" "" "" "" ""].map (fun r => source_ids_hash (UserRow.source_ids r))
        = [UserRow.mk "a" "" "" "" "" ""].map (fun r => source_ids_hash (UserRow.source_ids r)))
    ∧ MigrateMap.ids 2 (migrateMap (fun r => source_ids_hash (UserRow.source_ids r))
          [UserRow.mk "a" "" "" "" "" ""])
        = MigrateMap.ids 2 (migrateMap (fun r => source_ids_hash (UserRow.source_ids r))
          [UserRow.mk "a" "" "" "" "" ""]) :=
  derivation_deterministic UserRow.source_ids 2 _ _ rfl

/-- C3: the effective input for the Media Revisions entity type is the
media csv rows followed by the media revisions csv rows (the revisions
header line is dropped, the media rows keep their order and come first),
and the destination ids over this merged sequence follow the standard
first-seen-order assignment with offset 0. -/
theorem media_revision_merge (h1 h2 : String) (mLines rLines : List String)
    (decode : String → MediaRevisionRow) :
    csvDataRows (mergedMediaRevisionLines (h1 :: mLines) (h2 :: rLines)) = mLines ++ rLines
    ∧ MigrateMap.ids 0 (migrateMap (fun r => source_ids_hash r.source_ids)
        ((csvDataRows (mergedMediaRevisionLines (h1 :: mLines) (h2 :: rLines))).map decode))
      = (firstSeen (((csvDataRows (mergedMediaRevisionLines (h1 :: mLines) (h2 :: rLines))).map
            decode).map (fun r => source_ids_hash r.source_ids))).enum.map
          (fun p => (p.2, 0 + p.1)) := by
  constructor
  · simp [csvDataRows, mergedMediaRevisionLines]
  · exact (@slice_ids_spec MediaRevisionRow (fun r => source_ids_hash r.source_ids) 0
      ((csvDataRows (mergedMediaRevisionLines (h1 :: mLines) (h2 :: rLines))).map decode)).1

/-! ## Last-write-wins value semantics of the migrate map -/

theorem ofirst_none_right {α : Type} (x : Option α) : ofirst x none = x := by
  cases x <;> rfl

theorem ofirst_some_absorb {α : Type} (a : Option α) (x : α) (y : Option α) :
    ofirst (ofirst a (some x)) y = ofirst a (some x) := by
  cases a <;> rfl

theorem alookup_nil {α β : Type} [DecidableEq α] (k : α) :
    alookup k ([] : List (α × β)) = none := rfl

theorem alookup_cons {α β : Type} [DecidableEq α] (k : α) (p : α × β) (t : List (α × β)) :
    alookup k (p :: t) = if p.1 = k then some p.2 else alookup k t := rfl

theorem alookup_append {α β : Type} [DecidableEq α] (k : α) (l1 l2 : List (α × β)) :
    alookup k (l1 ++ l2) = ofirst (alookup k l1) (alookup k l2) := by
  induction l1 with
  | nil => rfl
  | cons p t ih =>
    rw [List.cons_append, alookup_cons, alookup_cons]
    by_cases hp : p.1 = k
    · rw [if_pos hp, if_pos hp]; rfl
    · rw [if_neg hp, if_neg hp, ih]

theorem alookup_eq_none_iff {α β : Type} [DecidableEq α] (k : α) (m : List (α × β)) :
    alookup k m = none ↔ k ∉ m.map Prod.fst := by
  induction m with
  | nil => simp [alookup]
  | cons p t ih =>
    rw [alookup_cons, List.map_cons]
    by_cases hp : p.1 = k
    · rw [if_pos hp]
      constructor
      · intro h; cases h
      · intro h; exact absurd (List.mem_cons.mpr (Or.inl hp.symm)) h
    · rw [if_neg hp, ih]
      simp only [List.mem_cons, not_or]
      constructor
      · intro h; exact ⟨fun he => hp he.symm, h⟩
      · intro h; exact h.2

theorem alookup_map_overwrite {R : Type} (k : String) (v : R) :
    ∀ (m : List (String × R)), k ∈ m.map Prod.fst →
      alookup k (m.map (fun p => if p.1 == k then (k, v) else p)) = some v := by
  intro m
  induction m with
  | nil => intro h; simp at h
  | cons p t ih =>
    intro hk
    rw [List.map_cons]
    by_cases hp : p.1 = k
    · have hhead : (if (p.1 == k) = true then ((k, v) : String × R) else p) = (k, v) := by
        simp [hp]
      rw [hhead, alookup_cons, if_pos rfl]
    · have hhead : (if (p.1 == k) = true then ((k, v) : String × R) else p) = p := by
        simp [hp]
      rw [hhead, alookup_cons, if_neg hp]
      apply ih
      rw [List.map_cons] at hk
      rcases List.mem_cons.mp hk with h | h
      · exact absurd h.symm hp
      · exact h

theorem alookup_map_overwrite_ne {R : Type} (k' k : String) (v : R) (h : k' ≠ k) :
    ∀ (m : List (String × R)),
      alookup k (m.map (fun p => if p.1 == k' then (k', v) else p)) = alookup k m := by
  intro m
  induction m with
  | nil => rfl
  | cons p t ih =>
    rw [List.map_cons]
    by_cases hp : p.1 = k'
    · have hhead : (if (p.1 == k') = true then ((k', v) : String × R) else p) = (k', v) := by
        simp [hp]
      rw [hhead, alookup_cons, alookup_cons, ih, if_neg h, if_neg (hp ▸ h : ¬p.1 = k)]
    · have hhead : (if (p.1 == k') = true then ((k', v) : String × R) else p) = p := by
        simp [hp]
      rw [hhead, alookup_cons, alookup_cons, ih]

theorem alookup_indexMapInsert_self {R : Type} (m : List (String × R)) (k : String) (v : R) :
    alookup k (indexMapInsert m k v) = some v := by
  unfold indexMapInsert
  by_cases hk : k ∈ m.map Prod.fst
  · rw [if_pos ((mem_keys_iff_any m k).mpr hk)]
    exact alookup_map_overwrite k v m hk
  · rw [if_neg (fun h => hk ((mem_keys_iff_any m k).mp h)), alookup_append,
      (alookup_eq_none_iff k m).mpr hk]
    show alookup k [(k, v)] = some v
    rw [alookup_cons, if_pos rfl]

theorem alookup_indexMapInsert_ne {R : Type} (m : List (String × R)) (k' k : String) (v : R)
    (h : k' ≠ k) :
    alookup k (indexMapInsert m k' v) = alookup k m := by
  unfold indexMapInsert
  by_cases hk : (m.any (fun p => p.1 == k')) = true
  · rw [if_pos hk]
    exact alookup_map_overwrite_ne k' k v h m
  · rw [if_neg hk, alookup_append]
    have h2 : alookup k [(k', v)] = none := by
      rw [alookup_cons, if_neg h]
      rfl
    rw [h2, ofirst_none_right]

theorem getLast?_cons_ofirst {α : Type} (a : α) (l : List α) :
    List.getLast? (a :: l) = ofirst l.getLast? (some a) := by
  induction l generalizing a with
  | nil => rfl
  | cons b t ih =>
    rw [List.getLast?_cons_cons, ih b, ofirst_some_absorb]

theorem lookup_migrate_foldl {R : Type} (key : R → String) (k : String) :
    ∀ (rows : List R) (m : List (String × R)),
      alookup k (rows.foldl (fun m r => indexMapInsert m (key r) r) m)
        = ofirst ((rows.filter (fun r => key r == k)).getLast?) (alookup k m) := by
  intro rows
  induction rows with
  | nil => intro m; rfl
  | cons r rows ih =>
    intro m
    simp only [List.foldl_cons, List.filter_cons]
    by_cases hr : key r = k
    · subst hr
      rw [if_pos (by simp), ih, alookup_indexMapInsert_self,
        getLast?_cons_ofirst, ofirst_some_absorb]
    · rw [if_neg (by simpa using hr), ih, alookup_indexMapInsert_ne m (key r) k r hr]

/-- C5: duplicate source keys within one entity type collapse to a
single destination id; the retained row is the last input row with that
key, while the id slot is the key's first-seen position. -/
theorem duplicate_keys_collapse {R : Type} (sourceIds : R → List String) (offset : Nat)
    (rows : List R) (k : String)
    (hmem : k ∈ rows.map (fun r => source_ids_hash (sourceIds r))) :
    alookup k (migrateMap (fun r => source_ids_hash (sourceIds r)) rows)
        = (rows.filter (fun r => source_ids_hash (sourceIds r) == k)).getLast?
    ∧ alookup k (MigrateMap.ids offset
          (migrateMap (fun r => source_ids_hash (sourceIds r)) rows))
        = some (offset
            + (firstSeen (rows.map (fun r => source_ids_hash (sourceIds r)))).indexOf k)
    ∧ ((migrateMap (fun r => source_ids_hash (sourceIds r)) rows).map Prod.fst).Nodup := by
  refine ⟨?_, ?_, ?_⟩
  · rw [migrateMap, lookup_migrate_foldl, alookup_nil, ofirst_none_right]
  · rw [ids_eq_enum_keys, migrateMap_keys]
    have hmem2 : k ∈ firstSeen (rows.map (fun r => source_ids_hash (sourceIds r))) :=
      (mem_firstSeen _ k).mpr hmem
    have hlt := List.indexOf_lt_length.mpr hmem2
    exact alookup_enum_nodup _ offset _ k (firstSeen_nodup _)
      (List.getElem?_eq_some.mpr ⟨hlt, List.getElem_indexOf hlt⟩)
  · rw [migrateMap_keys]
    exact firstSeen_nodup _

set_option maxRecDepth 400000 in
/-- Witness for duplicate_keys_collapse: two user rows share the name x,
so they share the key; the map keeps the second row's fields at the
first row's slot, destination id 2 + 0. -/
theorem duplicate_keys_collapse_witness :
    (source_ids_hash ["x"]
        ∈ [UserRow.mk "x" "p1" "" "" "" "", UserRow.mk "x" "p2" "" "" "" ""].map
            (fun r => source_ids_hash (UserRow.source_ids r)))
    ∧ (alookup (source_ids_hash ["x"])
          (migrateMap (fun r => source_ids_hash (UserRow.source_ids r))
            [UserRow.mk "x" "p1" "" "" "" "", UserRow.mk "x" "p2" "" "" "" ""])
        = ([UserRow.mk "x" "p1" "" "" "" "", UserRow.mk "x" "p2" "" "" "" ""].filter
            (fun r => source_ids_hash (UserRow.source_ids r) == source_ids_hash ["x"])).getLast?
      ∧ alookup (source_ids_hash ["x"])
          (MigrateMap.ids 2 (migrateMap (fun r => source_ids_hash (UserRow.source_ids r))
            [UserRow.mk "x" "p1" "" "" "" "", UserRow.mk "x" "p2" "" "" "" ""]))
        = some (2 + (firstSeen ([UserRow.mk "x" "p1" "" "" "" "",
              UserRow.mk "x" "p2" "" "" "" ""].map
              (fun r => source_ids_hash (UserRow.source_ids r)))).indexOf
              (source_ids_hash ["x"]))
      ∧ ((migrateMap (fun r => source_ids_hash (UserRow.source_ids r))
            [UserRow.mk "x" "p1" "" "" "" "", UserRow.mk "x" "p2" "" "" "" ""]).map
            Prod.fst).Nodup) :=
  ⟨by decide,
   duplicate_keys_collapse UserRow.source_ids 2
     [UserRow.mk "x" "p1" "" "" "" "", UserRow.mk "x" "p2" "" "" "" ""]
     (source_ids_hash ["x"]) (by decide)⟩

/-! ## Cross-reference resolution through the registry -/

theorem ids_map_fst {R : Type} (offset : Nat) (m : List (String × R)) :
    (MigrateMap.ids offset m).map Prod.fst = m.map Prod.fst := by
  unfold MigrateMap.ids
  rw [List.map_map]
  have h : (Prod.fst ∘ fun p : Nat × (String × R) => (p.2.1, offset + p.1))
      = Prod.fst ∘ Prod.snd := rfl
  rw [h, ← List.map_map, List.enum_map_snd]

theorem alookup_isSome_of_mem {α β : Type} [DecidableEq α] (k : α) (m : List (α × β))
    (h : k ∈ m.map Prod.fst) : (alookup k m).isSome := by
  cases hl : alookup k m with
  | none => exact absurd h ((alookup_eq_none_iff k m).mp hl)
  | some d => rfl

/-- C4: after the Users run, a File row whose user name occurs in the
Users input resolves, through uid, to exactly the destination id the
users registry slice assigned to that name's source key; the admin name
resolves to 1; and a non-admin name whose source key is absent from the
slice yields the fatal ReferenceNotFound outcome (none). -/
theorem file_user_reference_resolution (users : List UserRow) (u v : String)
    (hu : ∃ r ∈ users, r.name = u) (hu2 : u ≠ "admin")
    (hv1 : v ≠ "admin")
    (hv2 : alookup (source_ids_hash [v]) (userIds users) = none) :
    (∃ d, alookup (source_ids_hash [u]) (userIds users) = some d
        ∧ MigrateMap.uid (usersRegistry users) u = some d)
    ∧ MigrateMap.uid (usersRegistry users) v = none
    ∧ MigrateMap.uid (usersRegistry users) "admin" = some 1 := by
  refine ⟨?_, ?_, rfl⟩
  · have hmem : source_ids_hash [u] ∈ (userIds users).map Prod.fst := by
      obtain ⟨r, hr, hrn⟩ := hu
      unfold userIds userMap
      rw [ids_map_fst, migrateMap_keys, mem_firstSeen]
      refine List.mem_map.mpr ⟨r, hr, ?_⟩
      rw [UserRow.source_ids, hrn]
    obtain ⟨d, hd⟩ := Option.isSome_iff_exists.mp (alookup_isSome_of_mem _ _ hmem)
    refine ⟨d, hd, ?_⟩
    unfold MigrateMap.uid
    rw [if_neg hu2]
    unfold usersRegistry
    rw [alookup_cons, if_pos rfl]
    exact hd
  · unfold MigrateMap.uid
    rw [if_neg hv1]
    unfold usersRegistry
    rw [alookup_cons, if_pos rfl]
    exact hv2

set_option maxRecDepth 400000 in
/-- Witness for file_user_reference_resolution: with the single user
alice, the name alice resolves to its slice entry, bob is
ReferenceNotFound, and admin resolves to 1. -/
theorem file_user_reference_resolution_witness :
    (∃ d, alookup (source_ids_hash ["alice"]) (userIds [UserRow.mk "alice" "" "" "" "" ""])
          = some d
        ∧ MigrateMap.uid (usersRegistry [UserRow.mk "alice" "" "" "" "" ""]) "alice" = some d)
    ∧ MigrateMap.uid (usersRegistry [UserRow.mk "alice" "" "" "" "" ""]) "bob" = none
    ∧ MigrateMap.uid (usersRegistry [UserRow.mk "alice" "" "" "" "" ""]) "admin" = some 1 :=
  file_user_reference_resolution [UserRow.mk "alice" "" "" "" "" ""] "alice" "bob"
    (by decide) (by decide) (by decide) (by decide)

/-! ## Concrete encoder and hash vectors -/

set_option maxRecDepth 400000 in
/-- C6: the canonical encoding of the pair vcu:38191, JPG and of the
singleton namespace:123 are the exact expected byte strings, and the
SHA-256 of the former is the expected hex digest. -/
theorem encoder_hash_vectors :
    serialize ["vcu:38191", "JPG"] = "a:2:\x7bi:0;s:9:\"vcu:38191\";i:1;s:3:\"JPG\";\x7d"
    ∧ hash (serialize ["vcu:38191", "JPG"])
        = "000004fd2f49c175d5642673755c3ee43f90b5eebad2694ac52eda44496c611f"
    ∧ serialize ["namespace:123"] = "a:1:\x7bi:0;s:13:\"namespace:123\";\x7d" := by
  refine ⟨by decide, by decide, by decide⟩

/-- C8: the canonical encoder is deterministic, order-sensitive and
count-sensitive. -/
theorem encoder_algebraic :
    (∀ l : List String, serialize l = serialize l)
    ∧ serialize ["a", "b"] ≠ serialize ["b", "a"]
    ∧ serialize ["a"] ≠ serialize ["a", "a"] :=
  ⟨fun _ => rfl, by decide, by decide⟩

/-! ## UTF-8 round trip -/

theorem encodeCp_small (m : Nat) (h : m < 128) : encodeCp m = [m] := by
  unfold encodeCp
  rw [if_pos h]

theorem encodeCp_length_pos (n : Nat) : 1 ≤ (encodeCp n).length := by
  unfold encodeCp
  by_cases h1 : n < 128
  · simp [h1]
  · by_cases h2 : n < 2048
    · simp [h1, h2]
    · by_cases h3 : n < 65536
      · simp [h1, h2, h3]
      · simp [h1, h2, h3]

theorem decodeCp_encodeCp (n : Nat) (rest : List Nat) :
    decodeCp (encodeCp n ++ rest) = some (n, rest) := by
  unfold encodeCp
  by_cases h1 : n < 128
  · rw [if_pos h1]
    show decodeCp (n :: rest) = some (n, rest)
    simp only [decodeCp]
    rw [if_pos h1]
  · rw [if_neg h1]
    by_cases h2 : n < 2048
    · rw [if_pos h2]
      show decodeCp ((192 + n / 64) :: (128 + n % 64) :: rest) = some (n, rest)
      simp only [decodeCp]
      rw [if_neg (by omega), if_pos (by omega)]
      show some ((192 + n / 64 - 192) * 64 + (128 + n % 64 - 128), rest) = some (n, rest)
      have hv : (192 + n / 64 - 192) * 64 + (128 + n % 64 - 128) = n := by omega
      rw [hv]
    · rw [if_neg h2]
      by_cases h3 : n < 65536
      · rw [if_pos h3]
        show decodeCp ((224 + n / 4096) :: (128 + n / 64 % 64) :: (128 + n % 64) :: rest)
          = some (n, rest)
        simp only [decodeCp]
        rw [if_neg (by omega), if_neg (by omega), if_pos (by omega)]
        show some ((224 + n / 4096 - 224) * 4096 + (128 + n / 64 % 64 - 128) * 64
            + (128 + n % 64 - 128), rest) = some (n, rest)
        have hv : (224 + n / 4096 - 224) * 4096 + (128 + n / 64 % 64 - 128) * 64
            + (128 + n % 64 - 128) = n := by omega
        rw [hv]
      · rw [if_neg h3]
        show decodeCp ((240 + n / 262144) :: (128 + n / 4096 % 64) :: (128 + n / 64 % 64)
            :: (128 + n % 64) :: rest) = some (n, rest)
        simp only [decodeCp]
        rw [if_neg (by omega), if_neg (by omega), if_neg (by omega)]
        show some ((240 + n / 262144 - 240) * 262144 + (128 + n / 4096 % 64 - 128) * 4096
            + (128 + n / 64 % 64 - 128) * 64 + (128 + n % 64 - 128), rest) = some (n, rest)
        have hv : (240 + n / 262144 - 240) * 262144 + (128 + n / 4096 % 64 - 128) * 4096
            + (128 + n / 64 % 64 - 128) * 64 + (128 + n % 64 - 128) = n := by omega
        rw [hv]

theorem decodeChars_encode (cs : List Char) :
    ∀ fuel : Nat, (cs.flatMap (fun c => encodeCp c.toNat)).length ≤ fuel →
      decodeChars fuel (cs.flatMap (fun c => encodeCp c.toNat)) = some cs := by
  induction cs with
  | nil =>
    intro fuel _
    rw [List.flatMap_nil]
    cases fuel <;> rfl
  | cons c cs ih =>
    intro fuel hfuel
    rw [List.flatMap_cons] at hfuel ⊢
    have hlen : 1 ≤ (encodeCp c.toNat).length := encodeCp_length_pos _
    rw [List.length_append] at hfuel
    match hb : encodeCp c.toNat ++ cs.flatMap (fun c => encodeCp c.toNat) with
    | [] =>
      exfalso
      have hl0 : (encodeCp c.toNat).length
          + (cs.flatMap (fun c => encodeCp c.toNat)).length = 0 := by
        rw [← List.length_append, hb]
        rfl
      omega
    | b :: bs =>
      match fuel with
      | 0 =>
        exfalso
        omega
      | fuel + 1 =>
        show (match decodeCp (b :: bs) with
          | none => none
          | some (n, rest) =>
            match decodeChars fuel rest with
            | none => none
            | some cs => some (Char.ofNat n :: cs)) = some (c :: cs)
        rw [← hb, decodeCp_encodeCp]
        show (match decodeChars fuel (cs.flatMap (fun c => encodeCp c.toNat)) with
          | none => none
          | some cs2 => some (Char.ofNat c.toNat :: cs2)) = some (c :: cs)
        rw [ih fuel (by omega)]
        show some (Char.ofNat c.toNat :: cs) = some (c :: cs)
        rw [Char.ofNat_toNat]

theorem decodeStr_utf8 (s : String) : decodeStr (utf8Bytes s) = some s := by
  unfold decodeStr utf8Bytes
  rw [decodeChars_encode s.data _ (le_refl _)]

/-! ## Decimal digits of the length and count markers -/

theorem decDigits_lt_ten : ∀ (fuel n d : Nat), d ∈ decDigits fuel n → d < 10 := by
  intro fuel
  induction fuel with
  | zero => intro n d h; simp [decDigits] at h
  | succ fuel ih =>
    intro n d h
    match n with
    | 0 => simp [decDigits] at h
    | n + 1 =>
      simp only [decDigits] at h
      rcases List.mem_append.mp h with h | h
      · exact ih _ _ h
      · rw [List.mem_singleton] at h
        subst h
        exact Nat.mod_lt _ (by omega)

theorem foldl_decDigits : ∀ (fuel n acc : Nat), n ≤ fuel →
    List.foldl (fun a d => a * 10 + d) acc (decDigits fuel n)
      = acc * 10 ^ (decDigits fuel n).length + n := by
  intro fuel
  induction fuel with
  | zero =>
    intro n acc h
    have h0 : n = 0 := by omega
    subst h0
    simp [decDigits]
  | succ fuel ih =>
    intro n acc h
    match n with
    | 0 => simp [decDigits]
    | n + 1 =>
      simp only [decDigits]
      have hq : (n + 1) / 10 ≤ fuel := by
        have := Nat.div_lt_self (Nat.succ_pos n) (by norm_num : 1 < 10)
        omega
      rw [List.foldl_append, List.length_append]
      simp only [List.foldl_cons, List.foldl_nil, List.length_cons, List.length_nil]
      rw [ih ((n + 1) / 10) acc hq]
      have hdm : 10 * ((n + 1) / 10) + (n + 1) % 10 = n + 1 := Nat.div_add_mod (n + 1) 10
      calc (acc * 10 ^ (decDigits fuel ((n + 1) / 10)).length + (n + 1) / 10) * 10
            + (n + 1) % 10
          = acc * (10 ^ (decDigits fuel ((n + 1) / 10)).length * 10)
            + (10 * ((n + 1) / 10) + (n + 1) % 10) := by ring
        _ = acc * 10 ^ ((decDigits fuel ((n + 1) / 10)).length + (0 + 1)) + (n + 1) := by
            rw [hdm, Nat.add_comm 0 1, pow_succ]

theorem char_digit_toNat (d : Nat) (h : d < 10) : (Char.ofNat (48 + d)).toNat = 48 + d := by
  interval_cases d <;> decide

theorem utf8_digit_list : ∀ ds : List Nat, (∀ d ∈ ds, d < 10) →
    ((ds.map (fun d => Char.ofNat (48 + d))).flatMap (fun c => encodeCp c.toNat))
      = ds.map (fun d => 48 + d) := by
  intro ds
  induction ds with
  | nil => intro _; rfl
  | cons d t ih =>
    intro h
    have hd : d < 10 := h d (List.mem_cons_self d t)
    rw [List.map_cons, List.flatMap_cons, List.map_cons,
      ih (fun x hx => h x (List.mem_cons_of_mem d hx))]
    rw [char_digit_toNat d hd, encodeCp_small _ (by omega), List.singleton_append]

theorem utf8_decStr (n : Nat) : utf8Bytes (decStr n) = decBytes n := by
  unfold decStr decBytes
  by_cases h : n = 0
  · rw [if_pos h, if_pos h]
    decide
  · rw [if_neg h, if_neg h]
    show ((decDigits n n).map (fun d => Char.ofNat (48 + d))).flatMap
        (fun c => encodeCp c.toNat) = (decDigits n n).map (fun d => 48 + d)
    exact utf8_digit_list _ (fun d hd => decDigits_lt_ten n n d hd)

theorem decBytes_digits (n : Nat) : ∀ b ∈ decBytes n, isDigitB b = true := by
  unfold decBytes
  by_cases h : n = 0
  · rw [if_pos h]
    intro b hb
    rw [List.mem_singleton] at hb
    subst hb
    decide
  · rw [if_neg h]
    intro b hb
    obtain ⟨d, hd, rfl⟩ := List.mem_map.mp hb
    have hlt := decDigits_lt_ten n n d hd
    simp only [isDigitB, Bool.and_eq_true, decide_eq_true_eq]
    omega

theorem parseVal_decBytes (n : Nat) :
    (decBytes n).foldl (fun a b => a * 10 + (b - 48)) 0 = n := by
  unfold decBytes
  by_cases h : n = 0
  · rw [if_pos h, h]
    rfl
  · rw [if_neg h, List.foldl_map]
    have hfun : (fun (a x : Nat) => a * 10 + (48 + x - 48)) = fun a x => a * 10 + x := by
      funext a x
      omega
    rw [hfun, foldl_decDigits n n 0 (le_refl n)]
    simp

/-! ## The byte form of the canonical encoding -/

theorem utf8Bytes_append (s t : String) :
    utf8Bytes (s ++ t) = utf8Bytes s ++ utf8Bytes t := by
  unfold utf8Bytes
  rw [String.data_append, List.flatMap_append]

theorem utf8_serialize_foldl (vs : List String) :
    ∀ (i : Nat) (acc : String),
      utf8Bytes ((List.enumFrom i vs).foldl
        (fun acc iv =>
          acc ++ "i:" ++ decStr iv.1 ++ ";" ++ "s:" ++ decStr (utf8Bytes iv.2).length
            ++ ":\"" ++ iv.2 ++ "\";") acc)
      = utf8Bytes acc ++ serBytesItems i vs := by
  induction vs with
  | nil => intro i acc; simp [serBytesItems]
  | cons v vs ih =>
    intro i acc
    rw [List.enumFrom_cons, List.foldl_cons, ih (i + 1)]
    simp only [utf8Bytes_append, utf8_decStr, serBytesItems, List.append_assoc]
    have hfrag : ∀ X : List Nat, utf8Bytes ";" ++ (utf8Bytes "s:" ++ X)
        = utf8Bytes ";s:" ++ X := by
      intro X
      rw [← List.append_assoc]
      congr 1
    rw [hfrag]

theorem serialize_eq_serBytes (l : List String) : utf8Bytes (serialize l) = serBytes l := by
  unfold serialize serBytes
  rw [utf8Bytes_append]
  have henum : l.enum = List.enumFrom 0 l := rfl
  rw [henum, utf8_serialize_foldl l 0 ("a:" ++ decStr l.length ++ ":\x7b")]
  simp only [utf8Bytes_append, utf8_decStr, List.append_assoc]

/-! ## The decoder inverts the encoder -/

theorem expects_append : ∀ (es rest : List Nat), expects es (es ++ rest) = some rest := by
  intro es
  induction es with
  | nil => intro rest; rfl
  | cons e t ih =>
    intro rest
    rw [List.cons_append]
    simp only [expects]
    rw [if_pos trivial]
    exact ih rest

theorem parseDigitsAux_append :
    ∀ (ds : List Nat) (acc b : Nat) (tail : List Nat),
      (∀ x ∈ ds, isDigitB x = true) → isDigitB b = false →
      parseDigitsAux acc (ds ++ b :: tail)
        = (ds.foldl (fun a x => a * 10 + (x - 48)) acc, b :: tail) := by
  intro ds
  induction ds with
  | nil =>
    intro acc b tail _ hb
    rw [List.nil_append]
    simp [parseDigitsAux, hb]
  | cons d t ih =>
    intro acc b tail hds hb
    rw [List.cons_append]
    simp only [parseDigitsAux]
    rw [if_pos (hds d (List.mem_cons_self d t))]
    rw [ih _ b tail (fun x hx => hds x (List.mem_cons_of_mem d hx)) hb]
    rw [List.foldl_cons]

theorem parseItems_serBytesItems (vs : List String) :
    ∀ (i : Nat) (rest : List Nat),
      parseItems vs.length (serBytesItems i vs ++ rest) = some (vs, rest) := by
  induction vs with
  | nil => intro i rest; rfl
  | cons v vs ih =>
    intro i rest
    have f1 : ∀ X : List Nat, utf8Bytes ";s:" ++ X = 59 :: 115 :: 58 :: X := fun _ => rfl
    have f2 : ∀ X : List Nat, utf8Bytes ":\"" ++ X = 58 :: 34 :: X := fun _ => rfl
    have f3 : ∀ X : List Nat, utf8Bytes "\";" ++ X = 34 :: 59 :: X := fun _ => rfl
    have hlen : (v :: vs).length = vs.length + 1 := rfl
    rw [hlen]
    simp only [serBytesItems, List.append_assoc, List.cons_append, f1, f2, f3]
    simp only [parseItems]
    rw [expects_append]
    simp only []
    rw [parseDigitsAux_append (decBytes i) 0 59 _ (decBytes_digits i) (by decide)]
    simp only [parseVal_decBytes]
    rw [show (∀ X : List Nat, expects (utf8Bytes ";s:") (59 :: 115 :: 58 :: X) = some X)
      from fun _ => rfl]
    simp only []
    rw [parseDigitsAux_append (decBytes (utf8Bytes v).length) 0 58 _
      (decBytes_digits _) (by decide)]
    simp only [parseVal_decBytes]
    rw [show (∀ X : List Nat, expects (utf8Bytes ":\"") (58 :: 34 :: X) = some X)
      from fun _ => rfl]
    simp only []
    rw [if_pos (by rw [List.length_append]; exact Nat.le_add_right _ _)]
    rw [List.take_left, List.drop_left, decodeStr_utf8]
    rw [show (∀ X : List Nat, expects (utf8Bytes "\";") (34 :: 59 :: X) = some X)
      from fun _ => rfl]
    simp only []
    rw [ih (i + 1) rest]

theorem parseSer_serBytes (l : List String) : parseSer (serBytes l) = some l := by
  have f4 : ∀ X : List Nat, utf8Bytes ":\x7b" ++ X = 58 :: 123 :: X := fun _ => rfl
  unfold serBytes
  simp only [List.append_assoc, List.cons_append, f4]
  simp only [parseSer]
  rw [expects_append]
  simp only []
  rw [parseDigitsAux_append (decBytes l.length) 0 58 _ (decBytes_digits _) (by decide)]
  simp only [parseVal_decBytes]
  rw [show (∀ X : List Nat, expects (utf8Bytes ":\x7b") (58 :: 123 :: X) = some X)
    from fun _ => rfl]
  simp only []
  rw [parseItems_serBytesItems l 0 (utf8Bytes "\x7d")]
  simp only []
  rw [show expects (utf8Bytes "\x7d") (utf8Bytes "\x7d") = some [] from rfl]
  rfl

/-- C10: the canonical encoder is injective, not merely collision
resistant: the decoder parseSer recovers the component list exactly
from the UTF-8 bytes of the encoding (the count and per-component byte
length markers make parsing unambiguous without escaping), hence two
distinct ordered lists always serialize to distinct byte strings. -/
theorem serialize_injective :
    (∀ l : List String, parseSer (utf8Bytes (serialize l)) = some l)
    ∧ ∀ l1 l2 : List String,
        utf8Bytes (serialize l1) = utf8Bytes (serialize l2) → l1 = l2 := by
  have hmain : ∀ l : List String, parseSer (utf8Bytes (serialize l)) = some l := by
    intro l
    rw [serialize_eq_serBytes]
    exact parseSer_serBytes l
  refine ⟨hmain, ?_⟩
  intro l1 l2 h
  have h1 := hmain l1
  rw [h, hmain l2] at h1
  injection h1 with h2
  exact h2.symm

/-- Witness for serialize_injective: the decoder recovers a concrete
two-component list, and equal encodings force equal lists. -/
theorem serialize_injective_witness :
    parseSer (utf8Bytes (serialize ["ab", "c"])) = some ["ab", "c"]
    ∧ (["x"] : List String) = ["x"] :=
  ⟨serialize_injective.1 ["ab", "c"],
   serialize_injective.2 ["x"] ["x"] rfl⟩

end Migration

